import Mathlib

/-!
Shallow embedding of `src/fft_analysis/audio/stft.py` (class `STFTProcessor`).

Arrays are modelled as total functions with an explicit length; real (float)
arithmetic is modelled over `ℝ`, complex spectra over `ℂ`.  The NumPy FFT
primitives are modelled by their documented formulas
(`fft(a)[k] = Σ_n a[n]·exp(-2πi·k·n/N)`, `ifft` its normalized inverse).
Python exceptions are modelled with `Except`.
-/

namespace FftAnalysis

open Finset

/-- Python-level exceptions that the `STFTProcessor` code paths can raise:
`ValueError` (explicit raise in `_get_window`, and NumPy's negative-dimension
check in `np.zeros`), `ZeroDivisionError` (integer `//` by zero), and NumPy
broadcasting failures when array shapes in an elementwise operation differ. -/
inductive PyErr where
  | valueError (msg : String)
  | zeroDivisionError
  | broadcastError
deriving DecidableEq

/-- Configuration state set by `STFTProcessor.__init__`: the three fields the
transform code reads (`experiment_id` and `date` feed only `save_results`,
which is out of the modelled core). -/
structure Processor where
  window_size : ℤ
  hop_length : ℤ
  window_type : String
deriving DecidableEq

/-- The list `supported_windows` in `STFTProcessor._get_window`. -/
def supportedWindows : List String := ["hann", "hamming", "blackman", "bartlett"]

/-- Constructing an `STFTProcessor`: `__init__` stores the three fields and
calls `_get_window`, which raises `ValueError` for an unsupported
`window_type`; `scipy.signal.get_window` then raises `ValueError` when the
window length is negative (its `_len_guards` check).  No other validation is
performed by the source. -/
def mkProcessor (window_size hop_length : ℤ) (window_type : String) :
    Except PyErr Processor :=
  if window_type ∉ supportedWindows then
    .error (.valueError "Unsupported window type")
  else if window_size < 0 then
    .error (.valueError "Window length M must be a non-negative integer")
  else
    .ok ⟨window_size, hop_length, window_type⟩

/-- Coefficient `n` of `scipy.signal.get_window(window_type, M)`
(`fftbins=True`, i.e. the periodic variant: the symmetric window of length
`M+1` truncated to `M` points; for `M ≤ 1` scipy returns all-ones). -/
noncomputable def windowVal (wt : String) (M : ℤ) (n : ℕ) : ℝ :=
  if M ≤ 1 then 1
  else if wt = "hann" then 1/2 - 1/2 * Real.cos (2 * Real.pi * n / M)
  else if wt = "hamming" then 0.54 - 0.46 * Real.cos (2 * Real.pi * n / M)
  else if wt = "blackman" then
    0.42 - 1/2 * Real.cos (2 * Real.pi * n / M)
      + 0.08 * Real.cos (4 * Real.pi * n / M)
  else if wt = "bartlett" then
    if 2 * (n : ℤ) ≤ M then 2 * n / M else 2 - 2 * n / M
  else 0

/-- The precomputed `self.window` array of the processor. -/
noncomputable def Processor.window (p : Processor) (n : ℕ) : ℝ :=
  windowVal p.window_type p.window_size n

/-- A NumPy 2-D complex array (`stft_matrix`): shape plus entries, entries
outside the shape read as `0` (matching the `np.zeros` initialization). -/
structure SpecMat where
  rows : ℕ
  cols : ℕ
  entry : ℕ → ℕ → ℂ

/-- A real 1-D array: length plus values, values past the end read as `0`. -/
structure Signal where
  len : ℕ
  val : ℕ → ℝ

/-- NumPy forward DFT (`np.fft.fft`) of the first `N` entries of `v`:
`fft(v)[k] = Σ_{n<N} v[n] · exp(-2πi·k·n/N)`. -/
noncomputable def fft (N : ℕ) (v : ℕ → ℂ) (k : ℕ) : ℂ :=
  ∑ n ∈ range N, v n * Complex.exp (-(2 * Real.pi * Complex.I) * k * n / N)

/-- NumPy inverse DFT (`np.fft.ifft`):
`ifft(V)[n] = (1/N) Σ_{k<N} V[k] · exp(2πi·k·n/N)`. -/
noncomputable def ifft (N : ℕ) (V : ℕ → ℂ) (n : ℕ) : ℂ :=
  (∑ k ∈ range N, V k * Complex.exp ((2 * Real.pi * Complex.I) * k * n / N)) / N

/-- Python floor division `a // b` on integers. -/
def pyFloorDiv (a b : ℤ) : ℤ := Int.fdiv a b

/-- The frame count `num_frames = 1 + (len(audio_signal) - window_size) //
hop_length` computed at the top of `STFTProcessor.stft`. -/
def numFrames (p : Processor) (L : ℕ) : ℤ :=
  1 + pyFloorDiv ((L : ℤ) - p.window_size) p.hop_length

/-- `STFTProcessor.stft`: computes `num_frames`, allocates
`np.zeros((window_size, num_frames))` (NumPy raises `ValueError` on a negative
dimension) and fills column `i` with the FFT of the window-multiplied frame
`audio_signal[i*hop : i*hop + window_size]`.  A zero `hop_length` raises
`ZeroDivisionError` at the `//`.  The source performs no signal-length
validation.  (For `hop_length < 0` Python's negative-index slicing is not
modelled; no configuration below exercises it.) -/
noncomputable def stftRun (p : Processor) (L : ℕ) (x : ℕ → ℝ) :
    Except PyErr SpecMat :=
  if p.hop_length = 0 then .error .zeroDivisionError
  else if numFrames p L < 0 then
    .error (.valueError "negative dimensions are not allowed")
  else
    .ok { rows := p.window_size.toNat
          cols := (numFrames p L).toNat
          entry := fun k i =>
            if k < p.window_size.toNat ∧ i < (numFrames p L).toNat then
              fft p.window_size.toNat
                (fun n => ((x (i * p.hop_length.toNat + n) * p.window n : ℝ) : ℂ)) k
            else 0 }

/-- Value accumulated into `output_signal[t]` by the overlap-add loop of
`STFTProcessor.istft`: each frame `i` contributes
`real(ifft(stft_matrix[:, i])) * window` at offset `i * hop_length`.
(When `M.rows = 1`, `ifft M.rows V n = V 0` for every `n`, which coincides
with NumPy broadcasting a length-1 frame across the window.) -/
noncomputable def synthAccum (p : Processor) (M : SpecMat) (t : ℕ) : ℝ :=
  ∑ i ∈ range M.cols,
    if i * p.hop_length.toNat ≤ t ∧ t < i * p.hop_length.toNat + p.window_size.toNat then
      (ifft M.rows (fun k => M.entry k i) (t - i * p.hop_length.toNat)).re *
        p.window (t - i * p.hop_length.toNat)
    else 0

/-- Value accumulated into `window_sum[t]` by the same loop: each frame adds
the raw window coefficients at its offset. -/
noncomputable def windowSumAccum (p : Processor) (M : SpecMat) (t : ℕ) : ℝ :=
  ∑ i ∈ range M.cols,
    if i * p.hop_length.toNat ≤ t ∧ t < i * p.hop_length.toNat + p.window_size.toNat then
      p.window (t - i * p.hop_length.toNat)
    else 0

/-- `STFTProcessor.istft`: reads `num_frames = stft_matrix.shape[1]`,
allocates the two accumulators of length
`(num_frames - 1) * hop_length + window_size` (NumPy raises on a negative
length), runs the overlap-add loop (whose elementwise `frame * self.window`
raises a broadcasting error on the first frame when the matrix row count is
neither `window_size` nor `1`), then replaces window-sum entries below `1e-6`
by `1` and divides.  The source performs no dimension check of its own. -/
noncomputable def istftRun (p : Processor) (M : SpecMat) : Except PyErr Signal :=
  if ((M.cols : ℤ) - 1) * p.hop_length + p.window_size < 0 then
    .error (.valueError "negative dimensions are not allowed")
  else if 0 < M.cols ∧ M.rows ≠ p.window_size.toNat ∧ M.rows ≠ 1 then
    .error .broadcastError
  else
    .ok { len := (((M.cols : ℤ) - 1) * p.hop_length + p.window_size).toNat
          val := fun t =>
            if t < (((M.cols : ℤ) - 1) * p.hop_length + p.window_size).toNat then
              synthAccum p M t /
                (if windowSumAccum p M t < 1e-6 then 1 else windowSumAccum p M t)
            else 0 }

/-- `STFTProcessor.compute_snr`: truncate both signals to the shorter length,
take the elementwise difference as noise, and return
`10 * log10(sum(original**2) / sum(noise**2))`. -/
noncomputable def computeSnr (original reconstructed : Signal) : ℝ :=
  10 * Real.logb 10
    ((∑ t ∈ range (min original.len reconstructed.len), original.val t ^ 2) /
      (∑ t ∈ range (min original.len reconstructed.len),
        (original.val t - reconstructed.val t) ^ 2))

/-! ### Discrete Fourier transform facts -/

/-- The forward transform only reads the first `N` entries of its input. -/
lemma fft_congr (N : ℕ) {v w : ℕ → ℂ} (h : ∀ n, n < N → v n = w n) (k : ℕ) :
    fft N v k = fft N w k := by
  unfold fft
  exact Finset.sum_congr rfl fun n hn => by rw [h n (Finset.mem_range.mp hn)]

/-- Geometric sum of the `N`-th root of unity attached to a pair of indices
below `N`: it vanishes unless the indices coincide. -/
lemma sum_root_of_unity (N : ℕ) (n m : ℕ) (hn : n < N) (hm : m < N) :
    ∑ k ∈ range N, Complex.exp (2 * Real.pi * Complex.I * ((n : ℂ) - m) / N) ^ k
      = if n = m then (N : ℂ) else 0 := by
  have hN : 0 < N := lt_of_le_of_lt (Nat.zero_le n) hn
  have hNc : (N : ℂ) ≠ 0 := Nat.cast_ne_zero.mpr hN.ne'
  rcases eq_or_ne n m with h | h
  · subst h
    simp
  · have hζN : Complex.exp (2 * Real.pi * Complex.I * ((n : ℂ) - m) / N) ^ N = 1 := by
      rw [← Complex.exp_nat_mul]
      have harg : (N : ℂ) * (2 * Real.pi * Complex.I * ((n : ℂ) - m) / N)
          = ((((n : ℤ) - (m : ℤ) : ℤ)) : ℂ) * (2 * Real.pi * Complex.I) := by
        push_cast
        field_simp
        ring
      rw [harg, Complex.exp_int_mul_two_pi_mul_I]
    have hζ1 : Complex.exp (2 * Real.pi * Complex.I * ((n : ℂ) - m) / N) ≠ 1 := by
      intro hone
      rw [Complex.exp_eq_one_iff] at hone
      obtain ⟨j, hj⟩ := hone
      have h2πI : (2 * (Real.pi : ℂ) * Complex.I : ℂ) ≠ 0 :=
        mul_ne_zero
          (mul_ne_zero two_ne_zero (Complex.ofReal_ne_zero.mpr Real.pi_ne_zero))
          Complex.I_ne_zero
      have hj' : 2 * (Real.pi : ℂ) * Complex.I * ((n : ℂ) - m)
          = 2 * (Real.pi : ℂ) * Complex.I * ((j : ℂ) * N) := by
        field_simp at hj
        linear_combination hj
      have hcast : ((n : ℂ) - m) = (j : ℂ) * N := mul_left_cancel₀ h2πI hj'
      have hint : (n : ℤ) - m = j * N := by
        exact_mod_cast hcast
      rcases eq_or_ne j 0 with hj0 | hj0
      · rw [hj0, zero_mul] at hint
        exact h (by omega)
      · have h1 : (1 : ℤ) ≤ |j| := Int.one_le_abs hj0
        have h2 : |(n : ℤ) - m| < N := by
          rw [abs_lt]
          omega
        have h3 : (N : ℤ) ≤ |j * N| := by
          rw [abs_mul, Int.abs_natCast]
          nlinarith [Int.natCast_nonneg N]
        rw [hint] at h2
        omega
    rw [geom_sum_eq hζ1, hζN]
    simp [h]

/-- Fourier inversion for the NumPy conventions: `ifft(fft(v))[n] = v[n]`
for every index `n` below the transform length. -/
lemma ifft_fft (N : ℕ) (v : ℕ → ℂ) (n : ℕ) (hn : n < N) :
    ifft N (fft N v) n = v n := by
  have hN : 0 < N := lt_of_le_of_lt (Nat.zero_le n) hn
  have hNc : (N : ℂ) ≠ 0 := Nat.cast_ne_zero.mpr hN.ne'
  have key : ∀ k m : ℕ,
      Complex.exp (-(2 * Real.pi * Complex.I) * k * m / N) *
        Complex.exp (2 * Real.pi * Complex.I * k * n / N)
        = Complex.exp (2 * Real.pi * Complex.I * ((n : ℂ) - m) / N) ^ k := by
    intro k m
    rw [← Complex.exp_nat_mul, ← Complex.exp_add]
    congr 1
    field_simp
    ring
  unfold ifft fft
  rw [div_eq_iff hNc]
  calc
    ∑ k ∈ range N,
        (∑ m ∈ range N,
          v m * Complex.exp (-(2 * Real.pi * Complex.I) * k * m / N)) *
          Complex.exp (2 * Real.pi * Complex.I * k * n / N)
      = ∑ k ∈ range N, ∑ m ∈ range N,
          v m * Complex.exp (2 * Real.pi * Complex.I * ((n : ℂ) - m) / N) ^ k := by
        refine Finset.sum_congr rfl fun k _ => ?_
        rw [Finset.sum_mul]
        refine Finset.sum_congr rfl fun m _ => ?_
        rw [mul_assoc, key k m]
    _ = ∑ m ∈ range N,
          v m * ∑ k ∈ range N,
            Complex.exp (2 * Real.pi * Complex.I * ((n : ℂ) - m) / N) ^ k := by
        rw [Finset.sum_comm]
        exact Finset.sum_congr rfl fun m _ => (Finset.mul_sum _ _ _).symm
    _ = ∑ m ∈ range N, v m * (if n = m then (N : ℂ) else 0) := by
        refine Finset.sum_congr rfl fun m hm => ?_
        rw [sum_root_of_unity N n m hn (Finset.mem_range.mp hm)]
    _ = v n * N := by
        simp only [mul_ite, mul_zero]
        rw [Finset.sum_ite_eq]
        simp [Finset.mem_range.mpr hn]

/-- Real-input specialization: the real part of `ifft(fft(x))` recovers the
real vector `x` exactly. -/
lemma ifft_fft_real (N : ℕ) (f : ℕ → ℝ) (n : ℕ) (hn : n < N) :
    (ifft N (fft N fun m => ((f m : ℝ) : ℂ)) n).re = f n := by
  rw [ifft_fft N _ n hn]
  exact Complex.ofReal_re _

/-- The inverse transform only reads the first `N` entries of its input. -/
lemma ifft_congr (N : ℕ) {V V' : ℕ → ℂ} (h : ∀ k, k < N → V k = V' k) (n : ℕ) :
    ifft N V n = ifft N V' n := by
  unfold ifft
  congr 1
  exact Finset.sum_congr rfl fun k hk => by rw [h k (Finset.mem_range.mp hk)]

/-! ### The periodic hann window of length 4 -/

lemma hann4 (n : ℕ) :
    windowVal "hann" 4 n = 1/2 - 1/2 * Real.cos (2 * Real.pi * n / 4) := by
  unfold windowVal
  norm_num

lemma hann4_0 : windowVal "hann" 4 0 = 0 := by
  rw [hann4]
  norm_num

lemma hann4_1 : windowVal "hann" 4 1 = 1/2 := by
  rw [hann4]
  have h : (2 * Real.pi * (1 : ℕ) / 4 : ℝ) = Real.pi / 2 := by
    push_cast
    ring
  rw [h, Real.cos_pi_div_two]
  norm_num

lemma hann4_2 : windowVal "hann" 4 2 = 1 := by
  rw [hann4]
  have h : (2 * Real.pi * (2 : ℕ) / 4 : ℝ) = Real.pi := by
    push_cast
    ring
  rw [h, Real.cos_pi]
  norm_num

lemma hann4_3 : windowVal "hann" 4 3 = 1/2 := by
  rw [hann4]
  have h : (2 * Real.pi * (3 : ℕ) / 4 : ℝ) = Real.pi + Real.pi / 2 := by
    push_cast
    ring
  rw [h, Real.cos_add, Real.cos_pi, Real.sin_pi, Real.cos_pi_div_two]
  norm_num

/-! ### Frame-count arithmetic -/

lemma ediv_neg_unit (a b : ℤ) (hb : 0 < b) (h1 : -b ≤ a) (h2 : a < 0) :
    a / b = -1 := by
  have ha : a = (a + b) + b * (-1) := by ring
  rw [ha, Int.add_mul_ediv_left _ _ hb.ne',
    Int.ediv_eq_zero_of_lt (by omega) (by omega)]
  norm_num

lemma ediv_le_neg_two (a b : ℤ) (hb : 0 < b) (h : a < -b) : a / b ≤ -2 := by
  have h2 : (-b - 1) / b = -2 := by
    have hs : -b - 1 = (b - 1) + b * (-2) := by ring
    rw [hs, Int.add_mul_ediv_left _ _ hb.ne',
      Int.ediv_eq_zero_of_lt (by omega) (by omega)]
    norm_num
  calc a / b ≤ (-b - 1) / b := Int.ediv_le_ediv hb (by omega)
  _ = -2 := h2

lemma numFrames_cast (W H L : ℕ) (wt : String) :
    numFrames ⟨(W : ℤ), (H : ℤ), wt⟩ L = 1 + ((L : ℤ) - W) / H := by
  unfold numFrames pyFloorDiv
  rw [Int.fdiv_eq_ediv _ (Int.natCast_nonneg H)]

lemma numFrames_of_long (W H L : ℕ) (wt : String) (_hH : 1 ≤ H) (hL : W ≤ L) :
    numFrames ⟨(W : ℤ), (H : ℤ), wt⟩ L = ((1 + (L - W) / H : ℕ) : ℤ) := by
  rw [numFrames_cast]
  have hsub : ((L : ℤ) - W) = ((L - W : ℕ) : ℤ) := by omega
  rw [hsub]
  push_cast
  ring

/-- Successful forward transform in the valid regime `hop ≥ 1`,
`len(signal) ≥ window_size`. -/
lemma stftRun_of_long (W H L : ℕ) (wt : String) (x : ℕ → ℝ)
    (hH : 1 ≤ H) (hL : W ≤ L) :
    stftRun ⟨(W : ℤ), (H : ℤ), wt⟩ L x
      = .ok ⟨W, 1 + (L - W) / H,
          fun k i =>
            if k < W ∧ i < 1 + (L - W) / H then
              fft W (fun n => ((x (i * H + n) * windowVal wt (W : ℤ) n : ℝ) : ℂ)) k
            else 0⟩ := by
  unfold stftRun
  rw [if_neg (by exact_mod_cast (show ¬(H = 0) by omega) : ¬((H : ℤ) = 0)),
    numFrames_of_long W H L wt hH hL,
    if_neg (not_lt.mpr (Int.natCast_nonneg _))]
  simp only [Int.toNat_natCast, Processor.window]

/-! ## Claims about the forward transform -/

/-- C2: for every signal of length `L ≥ window_size W` with hop `H ≥ 1`,
`stft` succeeds, produces exactly `1 + (L - W) / H` frames, the spectral
matrix has shape `(W, frame_count)`, and column `i` is the complex forward
transform of the window-multiplied frame starting at sample `i * H`. -/
theorem C2_stft_shape (W H L : ℕ) (wt : String) (x : ℕ → ℝ)
    (_hw : wt ∈ supportedWindows) (hH : 1 ≤ H) (hL : W ≤ L) :
    ∃ M : SpecMat, stftRun ⟨(W : ℤ), (H : ℤ), wt⟩ L x = .ok M ∧
      M.rows = W ∧ M.cols = 1 + (L - W) / H ∧
      ∀ k i, k < W → i < 1 + (L - W) / H →
        M.entry k i
          = fft W (fun n => ((x (i * H + n) * windowVal wt (W : ℤ) n : ℝ) : ℂ)) k := by
  refine ⟨_, stftRun_of_long W H L wt x hH hL, rfl, rfl, ?_⟩
  intro k i hk hi
  simp only [if_pos (And.intro hk hi)]

/-- Witness for C2 at `window_size=2, hop_length=1`, a 3-sample zero signal. -/
theorem C2_stft_shape_witness :
    "hann" ∈ supportedWindows ∧ (1 : ℕ) ≤ 1 ∧ (2 : ℕ) ≤ 3 ∧
      ∃ M : SpecMat,
        stftRun ⟨((2 : ℕ) : ℤ), ((1 : ℕ) : ℤ), "hann"⟩ 3 (fun _ => 0) = .ok M ∧
          M.rows = 2 ∧ M.cols = 2 := by
  refine ⟨by decide, by decide, by decide, ?_⟩
  obtain ⟨M, h1, h2, h3, _⟩ :=
    C2_stft_shape 2 1 3 "hann" (fun _ => 0) (by decide) (by decide) (by decide)
  exact ⟨M, h1, h2, by omega⟩

/-- C10: the forward transform depends only on the first
`(frame_count - 1) * hop + window_size` samples: two equal-length signals that
agree there produce identical spectral matrices. -/
theorem C10_reads_only_consumed_prefix (W H L : ℕ) (wt : String) (x y : ℕ → ℝ)
    (hH : 1 ≤ H) (hL : W ≤ L)
    (hagree : ∀ t, t < ((L - W) / H) * H + W → x t = y t) :
    stftRun ⟨(W : ℤ), (H : ℤ), wt⟩ L x = stftRun ⟨(W : ℤ), (H : ℤ), wt⟩ L y := by
  rw [stftRun_of_long W H L wt x hH hL, stftRun_of_long W H L wt y hH hL]
  have he : (fun k i =>
        if k < W ∧ i < 1 + (L - W) / H then
          fft W (fun n => ((x (i * H + n) * windowVal wt (W : ℤ) n : ℝ) : ℂ)) k
        else 0)
      = (fun k i =>
        if k < W ∧ i < 1 + (L - W) / H then
          fft W (fun n => ((y (i * H + n) * windowVal wt (W : ℤ) n : ℝ) : ℂ)) k
        else 0) := by
    funext k i
    by_cases hki : k < W ∧ i < 1 + (L - W) / H
    · rw [if_pos hki, if_pos hki]
      refine fft_congr W (fun n hn => ?_) k
      have hiq : i * H ≤ ((L - W) / H) * H :=
        Nat.mul_le_mul_right H (by omega)
      rw [hagree (i * H + n) (by omega)]
    · rw [if_neg hki, if_neg hki]
  rw [he]

/-- Witness for C10 at `window_size=2, hop_length=1, L=3`: the signals agree
below index 3 and differ from index 3 on. -/
theorem C10_reads_only_consumed_prefix_witness :
    (1 : ℕ) ≤ 1 ∧ (2 : ℕ) ≤ 3 ∧
      stftRun ⟨((2 : ℕ) : ℤ), ((1 : ℕ) : ℤ), "hann"⟩ 3 (fun _ => 0)
        = stftRun ⟨((2 : ℕ) : ℤ), ((1 : ℕ) : ℤ), "hann"⟩ 3
            (fun t => if t < 3 then 0 else 1) := by
  refine ⟨by decide, by decide, ?_⟩
  exact C10_reads_only_consumed_prefix 2 1 3 "hann" _ _ (by decide) (by decide)
    (fun t ht => by norm_num at ht ⊢; rw [if_pos (by omega)])

/-- C3 counterexample: with `window_size=4, hop_length=2`, a 3-sample signal
is shorter than one window, yet `stft` raises nothing and silently returns an
empty spectral matrix with zero frames. -/
theorem C3_counterexample :
    ∃ M : SpecMat, stftRun ⟨4, 2, "hann"⟩ 3 (fun _ => 0) = .ok M ∧
      M.rows = 4 ∧ M.cols = 0 := by
  unfold stftRun
  rw [if_neg (by decide), if_neg (by decide)]
  exact ⟨_, rfl, rfl, rfl⟩

/-- C3 amended: `stft` performs no input-length check.  For a too-short
signal with `W - H ≤ L < W` it silently returns a matrix with zero frames;
only for `L < W - H` does it fail, with NumPy's negative-dimension
`ValueError` at output-matrix allocation (not an `InputTooShort` error at
frame-count computation). -/
theorem C3_amended (W H L : ℕ) (wt : String) (x : ℕ → ℝ)
    (hH : 1 ≤ H) (hHW : H ≤ W) (hshort : L < W) :
    (W - H ≤ L → ∃ M : SpecMat, stftRun ⟨(W : ℤ), (H : ℤ), wt⟩ L x = .ok M ∧
        M.rows = W ∧ M.cols = 0) ∧
    (L < W - H → stftRun ⟨(W : ℤ), (H : ℤ), wt⟩ L x
        = .error (.valueError "negative dimensions are not allowed")) := by
  have hfc := numFrames_cast W H L wt
  have hHz : ¬((H : ℤ) = 0) := by exact_mod_cast (show ¬(H = 0) by omega)
  constructor
  · intro hge
    have hF : numFrames ⟨(W : ℤ), (H : ℤ), wt⟩ L = 0 := by
      rw [hfc, ediv_neg_unit ((L : ℤ) - W) H (by omega) (by omega) (by omega)]
      norm_num
    unfold stftRun
    rw [if_neg hHz, hF, if_neg (by norm_num)]
    exact ⟨_, rfl, Int.toNat_natCast W, rfl⟩
  · intro hlt
    have hF : numFrames ⟨(W : ℤ), (H : ℤ), wt⟩ L < 0 := by
      rw [hfc]
      have := ediv_le_neg_two ((L : ℤ) - W) H (by omega) (by omega)
      omega
    unfold stftRun
    rw [if_neg hHz, if_pos hF]

/-- Witness for C3 amended: the spec's own scenario, a 1000-sample signal
with `window_size=2048, hop_length=512`: the transform fails, but with the
NumPy negative-dimension error. -/
theorem C3_amended_witness :
    (1 : ℕ) ≤ 512 ∧ (512 : ℕ) ≤ 2048 ∧ (1000 : ℕ) < 2048 ∧ (1000 : ℕ) < 2048 - 512 ∧
      stftRun ⟨((2048 : ℕ) : ℤ), ((512 : ℕ) : ℤ), "hann"⟩ 1000 (fun _ => 0)
        = .error (.valueError "negative dimensions are not allowed") := by
  refine ⟨by decide, by decide, by decide, by decide, ?_⟩
  exact (C3_amended 2048 512 1000 "hann" (fun _ => 0) (by decide) (by decide)
    (by decide)).2 (by decide)

/-! ## Behaviour of the inverse transform -/

/-- Successful reconstruction when the matrix row count matches the window
size and there is at least one frame. -/
lemma istftRun_ok (W H : ℕ) (wt : String) (M : SpecMat)
    (hrows : M.rows = W) (hcols : 1 ≤ M.cols) :
    istftRun ⟨(W : ℤ), (H : ℤ), wt⟩ M
      = .ok ⟨(M.cols - 1) * H + W,
          fun t =>
            if t < (M.cols - 1) * H + W then
              synthAccum ⟨(W : ℤ), (H : ℤ), wt⟩ M t /
                (if windowSumAccum ⟨(W : ℤ), (H : ℤ), wt⟩ M t < 1e-6 then 1
                 else windowSumAccum ⟨(W : ℤ), (H : ℤ), wt⟩ M t)
            else 0⟩ := by
  have hlen : ((M.cols : ℤ) - 1) * (H : ℤ) + (W : ℤ)
      = (((M.cols - 1) * H + W : ℕ) : ℤ) := by
    have h1 : ((M.cols : ℤ) - 1) = ((M.cols - 1 : ℕ) : ℤ) := by omega
    rw [h1]
    push_cast
    ring
  unfold istftRun
  rw [hlen, if_neg (not_lt.mpr (Int.natCast_nonneg _)), if_neg (by simp [hrows])]
  simp only [Int.toNat_natCast]

/-- C5: for a spectral matrix with `window_size` rows and at least one frame,
`istft` succeeds with a signal of length exactly
`(frame_count - 1) * hop_length + window_size`, each position holding the
overlap-added sum of the re-windowed real inverse transforms of the columns
(each frame at offset `i * hop_length`), normalized by the accumulated raw
window coefficients (with the `1e-6` floor of C4). -/
theorem C5_istft_overlap_add (W H : ℕ) (wt : String) (M : SpecMat)
    (hrows : M.rows = W) (hcols : 1 ≤ M.cols) :
    ∃ s : Signal, istftRun ⟨(W : ℤ), (H : ℤ), wt⟩ M = .ok s ∧
      s.len = (M.cols - 1) * H + W ∧
      ∀ t, t < s.len →
        s.val t
          = (∑ i ∈ range M.cols,
              if i * H ≤ t ∧ t < i * H + W then
                (ifft M.rows (fun k => M.entry k i) (t - i * H)).re *
                  windowVal wt (W : ℤ) (t - i * H)
              else 0) /
            (if (∑ i ∈ range M.cols,
                  if i * H ≤ t ∧ t < i * H + W then windowVal wt (W : ℤ) (t - i * H)
                  else 0) < 1e-6 then 1
             else ∑ i ∈ range M.cols,
                  if i * H ≤ t ∧ t < i * H + W then windowVal wt (W : ℤ) (t - i * H)
                  else 0) := by
  refine ⟨_, istftRun_ok W H wt M hrows hcols, rfl, fun t ht => ?_⟩
  have hs : synthAccum ⟨(W : ℤ), (H : ℤ), wt⟩ M t
      = ∑ i ∈ range M.cols,
          if i * H ≤ t ∧ t < i * H + W then
            (ifft M.rows (fun k => M.entry k i) (t - i * H)).re *
              windowVal wt (W : ℤ) (t - i * H)
          else 0 := by
    unfold synthAccum
    simp only [Int.toNat_natCast, Processor.window]
  have hw : windowSumAccum ⟨(W : ℤ), (H : ℤ), wt⟩ M t
      = ∑ i ∈ range M.cols,
          if i * H ≤ t ∧ t < i * H + W then windowVal wt (W : ℤ) (t - i * H)
          else 0 := by
    unfold windowSumAccum
    simp only [Int.toNat_natCast, Processor.window]
  simp only [ht, if_pos, hs, hw]

/-- Witness for C5 at `window_size=4, hop_length=2` and a one-column zero
matrix with 4 rows. -/
theorem C5_istft_overlap_add_witness :
    (⟨4, 1, fun _ _ => 0⟩ : SpecMat).rows = 4 ∧
      1 ≤ (⟨4, 1, fun _ _ => 0⟩ : SpecMat).cols ∧
      ∃ s : Signal,
        istftRun ⟨((4 : ℕ) : ℤ), ((2 : ℕ) : ℤ), "hann"⟩ ⟨4, 1, fun _ _ => 0⟩ = .ok s ∧
          s.len = 4 := by
  refine ⟨rfl, by decide, ?_⟩
  obtain ⟨s, h1, h2, _⟩ :=
    C5_istft_overlap_add 4 2 "hann" ⟨4, 1, fun _ _ => 0⟩ rfl (by decide)
  exact ⟨s, h1, h2⟩

/-- C4: whenever `istft` returns a signal, every position whose accumulated
window energy is below the `1e-6` floor is divided by `1` instead: its value
is exactly the accumulated overlap-add sum, a plain (finite) real number. -/
theorem C4_edge_floor (p : Processor) (M : SpecMat) (s : Signal)
    (hok : istftRun p M = .ok s) (t : ℕ) (ht : t < s.len)
    (hsmall : windowSumAccum p M t < 1e-6) :
    s.val t = synthAccum p M t := by
  unfold istftRun at hok
  split at hok
  · exact absurd hok (by simp)
  · split at hok
    · exact absurd hok (by simp)
    · cases hok
      simp only [Signal.len] at ht
      simp only [Signal.val, if_pos ht, if_pos hsmall, div_one]

/-- Witness for C4: a 1-row, 1-column zero matrix against a hann window of
size 4; at position 0 the window sum is `hann[0] = 0 < 1e-6`. -/
theorem C4_edge_floor_witness :
    ∃ s : Signal, istftRun ⟨4, 2, "hann"⟩ ⟨1, 1, fun _ _ => 0⟩ = .ok s ∧
      0 < s.len ∧
      windowSumAccum ⟨4, 2, "hann"⟩ ⟨1, 1, fun _ _ => 0⟩ 0 < 1e-6 ∧
      s.val 0 = synthAccum ⟨4, 2, "hann"⟩ ⟨1, 1, fun _ _ => 0⟩ 0 := by
  have hws : windowSumAccum ⟨4, 2, "hann"⟩ ⟨1, 1, fun _ _ => 0⟩ 0
      < 1e-6 := by
    unfold windowSumAccum
    simp only [Finset.sum_range_one, Nat.mul_zero, Nat.zero_mul]
    norm_num [Processor.window, hann4_0]
  have hok : istftRun ⟨4, 2, "hann"⟩ ⟨1, 1, fun _ _ => 0⟩
      = .ok ⟨4, fun t =>
          if t < 4 then
            synthAccum ⟨4, 2, "hann"⟩ ⟨1, 1, fun _ _ => 0⟩ t /
              (if windowSumAccum ⟨4, 2, "hann"⟩ ⟨1, 1, fun _ _ => 0⟩ t < 1e-6 then 1
               else windowSumAccum ⟨4, 2, "hann"⟩ ⟨1, 1, fun _ _ => 0⟩ t)
          else 0⟩ := by
    unfold istftRun
    rw [if_neg (by decide), if_neg (by decide)]
    rfl
  refine ⟨_, hok, by norm_num, hws, ?_⟩
  exact C4_edge_floor ⟨4, 2, "hann"⟩ ⟨1, 1, fun _ _ => 0⟩ _ hok 0 (by norm_num) hws

/-- C9 counterexample: a 1-row spectral matrix does not match the configured
window size 4, yet `istft` raises no error: NumPy broadcasting stretches the
length-1 frame across the window and reconstruction silently succeeds. -/
theorem C9_counterexample :
    (1 : ℕ) ≠ 4 ∧
      ∃ s : Signal, istftRun ⟨4, 2, "hann"⟩ ⟨1, 2, fun _ _ => 0⟩ = .ok s := by
  refine ⟨by decide, ?_⟩
  unfold istftRun
  rw [if_neg (by decide), if_neg (by decide)]
  exact ⟨_, rfl⟩

/-- C9 amended: `istft` has no explicit dimension check.  When the matrix has
at least one column and its row count is neither the window size nor 1, the
first frame's elementwise re-windowing fails with a NumPy broadcast error
(before anything is accumulated); a row-count mismatch with zero columns, or
with exactly one row, produces no error at all. -/
theorem C9_amended (W H : ℕ) (wt : String) (M : SpecMat)
    (hcols : 1 ≤ M.cols) (hW : M.rows ≠ W) (h1 : M.rows ≠ 1) :
    istftRun ⟨(W : ℤ), (H : ℤ), wt⟩ M = .error .broadcastError := by
  have hnn : (0 : ℤ) ≤ ((M.cols : ℤ) - 1) * (H : ℤ) :=
    mul_nonneg (by omega) (by omega)
  unfold istftRun
  dsimp only
  rw [if_neg (by omega), if_pos ⟨by omega, by simpa using hW, h1⟩]

/-- Witness for C9 amended: a 3-row, 1-column matrix against window size 4. -/
theorem C9_amended_witness :
    1 ≤ (⟨3, 1, fun _ _ => 0⟩ : SpecMat).cols ∧
      (⟨3, 1, fun _ _ => 0⟩ : SpecMat).rows ≠ 4 ∧
      (⟨3, 1, fun _ _ => 0⟩ : SpecMat).rows ≠ 1 ∧
      istftRun ⟨((4 : ℕ) : ℤ), ((2 : ℕ) : ℤ), "hann"⟩ ⟨3, 1, fun _ _ => 0⟩
        = .error .broadcastError :=
  ⟨by decide, by decide, by decide,
    C9_amended 4 2 "hann" ⟨3, 1, fun _ _ => 0⟩ (by decide) (by decide) (by decide)⟩

/-! ## Claims about construction and the fidelity metric -/

/-- C7 counterexample: a processor whose `hop_length` (4096) exceeds its
`window_size` (2048) is constructed without any error. -/
theorem C7_counterexample :
    mkProcessor 2048 4096 "hann" = .ok ⟨2048, 4096, "hann"⟩ := by
  rfl

/-- C7 amended: construction succeeds exactly when the window type is in the
supported set and the window size is non-negative: the hop length is never
validated (zero, negative and window-exceeding hops are accepted), a
non-negative window size is never rejected, and a negative window size fails
only through the window generator's length guard. -/
theorem C7_amended (window_size hop_length : ℤ) (wt : String) :
    (∃ p, mkProcessor window_size hop_length wt = .ok p)
      ↔ (wt ∈ supportedWindows ∧ 0 ≤ window_size) := by
  unfold mkProcessor
  by_cases h1 : wt ∈ supportedWindows
  · by_cases h2 : window_size < 0
    · rw [if_neg (not_not_intro h1), if_pos h2]
      simp
      omega
    · rw [if_neg (not_not_intro h1), if_neg h2]
      simp [h1]
      omega
  · rw [if_pos h1]
    simp [h1]

/-- C8: every window type outside the supported enumeration fails processor
construction with the `ValueError` of `_get_window` (raised from `__init__`,
before any transform); every enumerated type is accepted (for any
non-negative window size, with the hop never checked). -/
theorem C8_window_type_validation :
    (∀ (window_size hop_length : ℤ) (wt : String), wt ∉ supportedWindows →
        mkProcessor window_size hop_length wt
          = .error (.valueError "Unsupported window type")) ∧
    (∀ (window_size hop_length : ℤ) (wt : String), wt ∈ supportedWindows →
        0 ≤ window_size →
        mkProcessor window_size hop_length wt
          = .ok ⟨window_size, hop_length, wt⟩) := by
  constructor
  · intro ws hl wt h
    unfold mkProcessor
    rw [if_pos h]
  · intro ws hl wt h h0
    unfold mkProcessor
    rw [if_neg (not_not_intro h), if_neg (by omega)]

/-- C6: `compute_snr` truncates both signals to the shorter length and
reports `10·log10(Σ original² / Σ noise²)` where the noise is the elementwise
difference; the noise energy is exactly zero precisely when the truncated
signals agree (the perfect-reconstruction case, in which the code divides by
zero and raises nothing rather than treating it as an error). -/
theorem C6_snr_formula (original reconstructed : Signal) :
    computeSnr original reconstructed
      = 10 * Real.logb 10
          ((∑ t ∈ range (min original.len reconstructed.len), original.val t ^ 2) /
            (∑ t ∈ range (min original.len reconstructed.len),
              (original.val t - reconstructed.val t) ^ 2)) ∧
    ((∑ t ∈ range (min original.len reconstructed.len),
        (original.val t - reconstructed.val t) ^ 2) = 0 ↔
      ∀ t, t < min original.len reconstructed.len →
        original.val t = reconstructed.val t) := by
  refine ⟨rfl, ?_⟩
  rw [Finset.sum_eq_zero_iff_of_nonneg (fun t _ => sq_nonneg _)]
  constructor
  · intro h t ht
    have h0 := h t (Finset.mem_range.mpr ht)
    exact sub_eq_zero.mp (sq_eq_zero_iff.mp h0)
  · intro h t ht
    rw [h t (Finset.mem_range.mp ht)]
    simp

/-! ## Round-trip composition -/

/-- Overlap-add accumulator of the round trip: because the inverse transform
exactly undoes the forward transform, each covering frame contributes the
original sample scaled by the square of the window (the synthesis
re-windowing multiplies the already-windowed frame by the window again). -/
lemma synthAccum_of_stft (W H L : ℕ) (wt : String) (x : ℕ → ℝ) (M : SpecMat)
    (hH : 1 ≤ H) (hL : W ≤ L)
    (hM : stftRun ⟨(W : ℤ), (H : ℤ), wt⟩ L x = .ok M) (t : ℕ) :
    synthAccum ⟨(W : ℤ), (H : ℤ), wt⟩ M t
      = ∑ i ∈ range (1 + (L - W) / H),
          if i * H ≤ t ∧ t < i * H + W then
            x t * windowVal wt (W : ℤ) (t - i * H) ^ 2
          else 0 := by
  rw [stftRun_of_long W H L wt x hH hL] at hM
  have hMeq : M
      = ⟨W, 1 + (L - W) / H,
          fun k i =>
            if k < W ∧ i < 1 + (L - W) / H then
              fft W (fun n => ((x (i * H + n) * windowVal wt (W : ℤ) n : ℝ) : ℂ)) k
            else 0⟩ := (Except.ok.inj hM).symm
  subst hMeq
  unfold synthAccum
  dsimp only
  simp only [Int.toNat_natCast, Processor.window]
  refine Finset.sum_congr rfl fun i hi => ?_
  by_cases hc : i * H ≤ t ∧ t < i * H + W
  · rw [if_pos hc, if_pos hc]
    have hlt : t - i * H < W := by omega
    have hcong : ifft W
          (fun k =>
            if k < W ∧ i < 1 + (L - W) / H then
              fft W (fun n => ((x (i * H + n) * windowVal wt (W : ℤ) n : ℝ) : ℂ)) k
            else 0) (t - i * H)
        = ifft W
            (fft W (fun n => ((x (i * H + n) * windowVal wt (W : ℤ) n : ℝ) : ℂ)))
            (t - i * H) :=
      ifft_congr W (fun k hk => if_pos ⟨hk, Finset.mem_range.mp hi⟩) _
    rw [hcong, ifft_fft W _ _ hlt, Complex.ofReal_re,
      show i * H + (t - i * H) = t by omega]
    ring
  · rw [if_neg hc, if_neg hc]

/-- Window-energy accumulator of the round trip: each covering frame adds one
raw window coefficient. -/
lemma windowSumAccum_of_stft (W H L : ℕ) (wt : String) (x : ℕ → ℝ) (M : SpecMat)
    (hH : 1 ≤ H) (hL : W ≤ L)
    (hM : stftRun ⟨(W : ℤ), (H : ℤ), wt⟩ L x = .ok M) (t : ℕ) :
    windowSumAccum ⟨(W : ℤ), (H : ℤ), wt⟩ M t
      = ∑ i ∈ range (1 + (L - W) / H),
          if i * H ≤ t ∧ t < i * H + W then windowVal wt (W : ℤ) (t - i * H)
          else 0 := by
  rw [stftRun_of_long W H L wt x hH hL] at hM
  have hMeq : M
      = ⟨W, 1 + (L - W) / H,
          fun k i =>
            if k < W ∧ i < 1 + (L - W) / H then
              fft W (fun n => ((x (i * H + n) * windowVal wt (W : ℤ) n : ℝ) : ℂ)) k
            else 0⟩ := (Except.ok.inj hM).symm
  subst hMeq
  unfold windowSumAccum
  dsimp only
  simp only [Int.toNat_natCast, Processor.window]

/-- C1 fails on the code.  Configuration `window_size=4, hop_length=1,
window_type=hann` has the hop evenly tiling the window and the shifted
periodic-hann copies summing to the constant 2 on fully covered samples
(constant overlap-add), yet the round trip of the constant-1 signal of
length 8 reconstructs the interior sample 4 (which is `≥ W` and
`≤ len - W`, the claim's non-edge region) as `3/4`: the overlap-add loop
deposits window-squared contributions but normalizes by the sum of raw
window coefficients, so interior samples are scaled by
`Σ w² / Σ w = (3/2)/2`, an error of `1/4 ≫ 1e-9`. -/
theorem C1_roundtrip_failing :
    ∃ (M : SpecMat) (s : Signal),
      stftRun ⟨((4 : ℕ) : ℤ), ((1 : ℕ) : ℤ), "hann"⟩ 8 (fun _ => 1) = .ok M ∧
      istftRun ⟨((4 : ℕ) : ℤ), ((1 : ℕ) : ℤ), "hann"⟩ M = .ok s ∧
      s.len = 8 ∧
      s.val 4 = 3 / 4 ∧
      ¬(|s.val 4 - 1| < 1e-9) := by
  have hM := stftRun_of_long 4 1 8 "hann" (fun _ => 1) (by decide) (by decide)
  refine ⟨_, _, hM, istftRun_ok 4 1 "hann" _ rfl (by norm_num), by norm_num, ?_⟩
  have hs := synthAccum_of_stft 4 1 8 "hann" (fun _ => 1) _ (by decide) (by decide) hM 4
  have hw := windowSumAccum_of_stft 4 1 8 "hann" (fun _ => 1) _ (by decide) (by decide) hM 4
  have hval :
      (Signal.val
        ⟨(1 + (8 - 4) / 1 - 1) * 1 + 4,
          fun t =>
            if t < (1 + (8 - 4) / 1 - 1) * 1 + 4 then
              synthAccum ⟨((4 : ℕ) : ℤ), ((1 : ℕ) : ℤ), "hann"⟩
                  ⟨4, 1 + (8 - 4) / 1,
                    fun k i =>
                      if k < 4 ∧ i < 1 + (8 - 4) / 1 then
                        fft 4 (fun n =>
                          (((fun _ => (1 : ℝ)) (i * 1 + n) *
                            windowVal "hann" ((4 : ℕ) : ℤ) n : ℝ) : ℂ)) k
                      else 0⟩ t /
                (if windowSumAccum ⟨((4 : ℕ) : ℤ), ((1 : ℕ) : ℤ), "hann"⟩
                      ⟨4, 1 + (8 - 4) / 1,
                        fun k i =>
                          if k < 4 ∧ i < 1 + (8 - 4) / 1 then
                            fft 4 (fun n =>
                              (((fun _ => (1 : ℝ)) (i * 1 + n) *
                                windowVal "hann" ((4 : ℕ) : ℤ) n : ℝ) : ℂ)) k
                          else 0⟩ t < 1e-6 then 1
                 else windowSumAccum ⟨((4 : ℕ) : ℤ), ((1 : ℕ) : ℤ), "hann"⟩
                      ⟨4, 1 + (8 - 4) / 1,
                        fun k i =>
                          if k < 4 ∧ i < 1 + (8 - 4) / 1 then
                            fft 4 (fun n =>
                              (((fun _ => (1 : ℝ)) (i * 1 + n) *
                                windowVal "hann" ((4 : ℕ) : ℤ) n : ℝ) : ℂ)) k
                          else 0⟩ t)
            else 0⟩ 4) = 3 / 4 := by
    dsimp only [Signal.val]
    rw [if_pos (by norm_num), hs, hw]
    norm_num [Finset.sum_range_succ, hann4_0, hann4_1, hann4_2, hann4_3]
  refine ⟨hval, ?_⟩
  rw [hval]
  rw [show (3 / 4 - 1 : ℝ) = -(1 / 4) by norm_num, abs_neg,
    abs_of_nonneg (by norm_num : (0 : ℝ) ≤ 1 / 4)]
  norm_num

end FftAnalysis
